import Mathlib

/-!
Shallow embedding of the core of the `ray-tracing-in-a-weekend` Rust
renderer, together with theorems checking its natural-language
specification. Machine `f64` values are modelled as real numbers; the few
places where an IEEE non-real (NaN) escapes are modelled with `Option`,
as noted at the definitions concerned. All definitions are transcribed
from the Rust sources (`src/vec3/mod.rs`, `src/color/mod.rs`,
`src/angle.rs`, `src/ray/mod.rs`, `src/object/sphere.rs`,
`src/object/list.rs`, `src/material/mod.rs`, `src/camera/mod.rs`,
`src/main.rs`); the handful of helpers whose definitions are absent from
the sources are marked `Modelled from the spec:` in their doc comments.
-/

namespace RT

noncomputable section

open scoped Classical

/-- A 3D vector, from `Vec3 { x, y, z }` in `src/vec3/mod.rs`. -/
@[ext]
structure Vec3 where
  x : ℝ
  y : ℝ
  z : ℝ

/-- Componentwise addition, from `impl AddAssign for Vec3`. -/
instance : Add Vec3 :=
  ⟨fun v w => ⟨v.x + w.x, v.y + w.y, v.z + w.z⟩⟩

/-- Componentwise subtraction, from `impl SubAssign for Vec3`. -/
instance : Sub Vec3 :=
  ⟨fun v w => ⟨v.x - w.x, v.y - w.y, v.z - w.z⟩⟩

/-- Negation, from `impl Neg for Vec3` (each component times `-1.`). -/
instance : Neg Vec3 :=
  ⟨fun v => ⟨v.x * -1, v.y * -1, v.z * -1⟩⟩

/-- Scalar multiple, from `impl MulAssign<f64> for Vec3`. -/
def Vec3.smul (k : ℝ) (v : Vec3) : Vec3 :=
  ⟨v.x * k, v.y * k, v.z * k⟩

/-- Scalar-times-vector product, from `impl Mul<Vec3> for f64`. -/
instance : HMul ℝ Vec3 Vec3 :=
  ⟨fun k v => Vec3.smul k v⟩

/-- Vector-times-scalar product, from `impl Mul<f64> for Vec3`. -/
instance : HMul Vec3 ℝ Vec3 :=
  ⟨fun v k => Vec3.smul k v⟩

/-- Division by a scalar, from `impl DivAssign<f64> for Vec3`: the source
multiplies each component by `1. / rhs`. -/
instance : HDiv Vec3 ℝ Vec3 :=
  ⟨fun v k => Vec3.smul (1 / k) v⟩

/-- Dot product, from `Vec3::dot`. -/
def Vec3.dot (v w : Vec3) : ℝ :=
  v.x * w.x + v.y * w.y + v.z * w.z

/-- Squared length, from `Vec3::length_squared`. -/
def Vec3.length_squared (v : Vec3) : ℝ :=
  v.x * v.x + v.y * v.y + v.z * v.z

/-- Length, from `Vec3::length`. -/
def Vec3.length (v : Vec3) : ℝ :=
  Real.sqrt v.length_squared

/-- Normalized copy, from `Vec3::normalized` which divides by `length()`. -/
def Vec3.normalized (v : Vec3) : Vec3 :=
  Vec3.smul (1 / v.length) v

/-- Modelled from the spec: `Vec3::near_zero` is called by
`Lambertian::scatter` but its definition is absent from the sources; the
spec describes it as detecting a "numerically near-zero (degenerate
cancellation)" vector. It is modelled as every component being smaller
than a tiny threshold in absolute value. -/
def Vec3.near_zero (v : Vec3) : Prop :=
  |v.x| < (1e-8 : ℝ) ∧ |v.y| < (1e-8 : ℝ) ∧ |v.z| < (1e-8 : ℝ)

/-- Modelled from the spec: `Vec3::reflect_about` is called by the Metal
and Dielectric materials but its definition is absent from the sources;
the spec describes it as reflecting the incoming direction about the
normal, which is the standard formula below. -/
def Vec3.reflect_about (v n : Vec3) : Vec3 :=
  v - (2 * v.dot n) * n

/-- Modelled from the spec: `Vec3::refract` is called by
`Dielectric::scatter` but its definition is absent from the sources; the
spec describes it through Snell's law, which the standard construction
below satisfies. No theorem below depends on this definition's value. -/
def Vec3.refract (v n : Vec3) (eta_from eta_to : ℝ) : Vec3 :=
  let q := eta_from / eta_to
  let cos_theta := -(v.dot n)
  q * v + (q * cos_theta - Real.sqrt (1 - q ^ 2 * (1 - cos_theta ^ 2))) * n

/-- An RGB color, from `Color { r, g, b }` in `src/color/mod.rs`. The
fields carry no bundled invariant, exactly as in the Rust struct. -/
@[ext]
structure Color where
  r : ℝ
  g : ℝ
  b : ℝ

/-- The clamp applied by every `Color` constructor and setter, from
`f64::clamp(0., 1.)`. On real numbers the Rust branch structure is
equivalent to this min/max form. -/
def clamp01 (v : ℝ) : ℝ :=
  min (max v 0) 1

/-- From `Color::new`, which clamps every channel to the unit interval. -/
def Color.new (r g b : ℝ) : Color :=
  ⟨clamp01 r, clamp01 g, clamp01 b⟩

/-- From `Color::set_red`. -/
def Color.set_red (c : Color) (r : ℝ) : Color :=
  { c with r := clamp01 r }

/-- From `Color::set_green`. -/
def Color.set_green (c : Color) (g : ℝ) : Color :=
  { c with g := clamp01 g }

/-- From `Color::set_blue`. -/
def Color.set_blue (c : Color) (b : ℝ) : Color :=
  { c with b := clamp01 b }

/-- From `Color::interpolate`: clamp `t`, then blend channelwise through
`Color::new`. -/
def Color.interpolate (c other : Color) (t : ℝ) : Color :=
  let s := clamp01 t
  Color.new ((1 - s) * c.r + s * other.r) ((1 - s) * c.g + s * other.g)
    ((1 - s) * c.b + s * other.b)

/-- From `Color::attenuate`: channelwise multiplication through
`Color::new`. -/
def Color.attenuate (c rhs : Color) : Color :=
  Color.new (c.r * rhs.r) (c.g * rhs.g) (c.b * rhs.b)

/-- From the derived `Default` implementation of `Color`: all channels
zero, without passing through the clamp. -/
def Color.defaultColor : Color :=
  ⟨0, 0, 0⟩

/-- Modelled from the spec: `Vec3::from(Color)` is called by
`Color::merge_samples` but the `From` impl is absent from the sources;
the spec says merging "converts each to a vector" and that the result is
the per-channel mean, so the conversion is channel-to-component. -/
def Vec3.fromColor (c : Color) : Vec3 :=
  ⟨c.r, c.g, c.b⟩

/-- The accumulation inside `Color::merge_samples`: each sample maps to
the pair `(1., Vec3::from(sample))` and the pairs are reduced, starting
from the `Default::default()` identity, by pairwise addition. The
parallel reduction of the source is an arbitrary regrouping of this
commutative-associative sum, modelled here as a left fold. -/
def Color.merge_fold (samples : List Color) : ℝ × Vec3 :=
  samples.foldl (fun acc s => (acc.1 + 1, acc.2 + Vec3.fromColor s)) ((0 : ℝ), ⟨0, 0, 0⟩)

/-- From `Color::merge_samples`: divide the summed sample vector by the
sample count, channelwise, with no clamp and no guard. The count is zero
exactly for the empty sample sequence, where the source's `f64` division
computes `0. / 0.` and fills every channel with NaN; that non-real
outcome is modelled as `none`. -/
def Color.merge_samples (samples : List Color) : Option Color :=
  let acc := Color.merge_fold samples
  if acc.1 = 0 then none
  else some ⟨acc.2.x / acc.1, acc.2.y / acc.1, acc.2.z / acc.1⟩

/-- The saturating Rust `as u32` cast applied to each channel by the
`Display` implementation of `Color`: truncation toward zero with
clamping into the `u32` range (for the nonnegative inputs at hand,
truncation coincides with the floor). -/
def f64_as_u32 (y : ℝ) : ℕ :=
  (min (max ⌊y⌋ 0) (2 ^ 32 - 1)).toNat

/-- From `impl Display for Color`: each channel is emitted as
`(channel * 255.999) as u32`. -/
def Color.displayTriple (c : Color) : ℕ × ℕ × ℕ :=
  (f64_as_u32 (c.r * 255.999), f64_as_u32 (c.g * 255.999), f64_as_u32 (c.b * 255.999))

/-- An inclusive parameter range with `f64` endpoints, from
`RangeInclusive<f64>`. The endpoints live in the extended reals so that
the `f64::INFINITY` upper bound used by `ray_color` is representable. -/
structure TRange where
  lo : EReal
  hi : EReal

/-- From `RangeInclusive::contains`: both bounds inclusive. -/
def TRange.mem (I : TRange) (t : ℝ) : Prop :=
  I.lo ≤ (t : EReal) ∧ (t : EReal) ≤ I.hi

/-- A light ray, from `Ray { origin, direction }` in `src/ray/mod.rs`. -/
structure Ray where
  origin : Vec3
  direction : Vec3

/-- From `Ray::at`: `origin + time * direction`. -/
def Ray.at (ray : Ray) (time : ℝ) : Vec3 :=
  ray.origin + time * ray.direction

/-- The geometric data of a ray-object intersection, from the `p`,
`normal` and `t` fields of `RayHit` in `src/ray/mod.rs`. -/
structure HitData where
  p : Vec3
  normal : Vec3
  t : ℝ

/-- The result of a material scatter, from `ScatterRecord` in
`src/material/mod.rs`. -/
structure ScatterRecord where
  attenuation : Color
  direction : Ray

/-- The `dyn Material` trait object of `src/material/mod.rs`: a scatter
policy. The concrete implementations only read the geometric fields of
the hit record, so the scatter function receives a `HitData`; the
`name()` method only serves `Sphere`'s equality and is not modelled. -/
structure Material where
  scatter : Ray → HitData → Option ScatterRecord

/-- A full `RayHit`, from `src/ray/mod.rs`: the geometric data plus the
shared material reference. -/
structure RayHit extends HitData where
  material : Material

/-- The `dyn Hittable` trait object of `src/ray/mod.rs`: an intersection
test over an inclusive parameter range. -/
structure Hittable where
  hit_by : Ray → TRange → Option RayHit

/-- A sphere, from `Sphere { center, radius, material }` in
`src/object/sphere.rs`. -/
structure Sphere where
  center : Vec3
  radius : ℝ
  material : Material

/-- From `Sphere::new`, which clamps the radius to be nonnegative via
`radius.max(0.)`. -/
def Sphere.new (center : Vec3) (radius : ℝ) (material : Material) : Sphere :=
  ⟨center, max radius 0, material⟩

/-- From `Sphere::normal`: `(p - center) / radius`. -/
def Sphere.normal (s : Sphere) (p : Vec3) : Vec3 :=
  (p - s.center) / s.radius

/-- From `impl Hittable for Sphere`, `Sphere::hit_by`
(`src/object/sphere.rs` lines 59-91): solve the half-b quadratic, bail
out on a negative quarter-discriminant, then return the first of the two
roots `t0 ≤ t1` lying in the inclusive range, if any. -/
def Sphere.hit_by (s : Sphere) (ray : Ray) (valid_t : TRange) : Option RayHit :=
  let co := ray.origin - s.center
  let a := ray.direction.length_squared
  let half_b := co.dot ray.direction
  let c := co.length_squared - s.radius ^ 2
  let quarter_discriminant := half_b * half_b - a * c
  if quarter_discriminant < 0 then none
  else
    let half_sdiscriminant := Real.sqrt quarter_discriminant
    let t0 := (-half_b - half_sdiscriminant) / a
    let t1 := t0 + 2 * half_sdiscriminant / a
    if valid_t.mem t0 then
      some ⟨⟨ray.at t0, s.normal (ray.at t0), t0⟩, s.material⟩
    else if valid_t.mem t1 then
      some ⟨⟨ray.at t1, s.normal (ray.at t1), t1⟩, s.material⟩
    else none

/-- Packages a sphere as a `dyn Hittable` trait object. -/
def Sphere.toHittable (s : Sphere) : Hittable :=
  ⟨s.hit_by⟩

/-- From `impl Hittable for List`, `List::hit_by` (`src/object/list.rs`
lines 38-47): fold over the members; a first hit is sought over the full
range, and each subsequent member is tested over the range narrowed to
end at the best `t` so far, keeping the previous best on a miss (the
source's `.or(Some(acc))`). -/
def listHitBy (objects : List Hittable) (ray : Ray) (valid_t : TRange) : Option RayHit :=
  objects.foldl
    (fun acc object =>
      match acc with
      | none => object.hit_by ray valid_t
      | some a =>
        match object.hit_by ray ⟨valid_t.lo, (a.t : EReal)⟩ with
        | some b => some b
        | none => some a)
    none

/-- The statement that the point of `ray` at parameter `t` lies on the
surface of `s`, i.e. that `t` is a root of the intersection quadratic
solved by `Sphere::hit_by`. -/
def on_sphere (s : Sphere) (ray : Ray) (t : ℝ) : Prop :=
  (ray.at t - s.center).length_squared = s.radius ^ 2

/-- A unit-tagged angle, from `enum Angle` in `src/angle.rs`. -/
inductive Angle where
  | degrees (d : ℝ)
  | radians (r : ℝ)

/-- From `Angle::to_degrees`: the `Degrees` variant is returned as-is
(`self`), the `Radians` payload is scaled by `f64::to_degrees`. -/
def Angle.to_degrees : Angle → Angle
  | .degrees d => .degrees d
  | .radians r => .degrees (r * (180 / Real.pi))

/-- From `Angle::to_radians`: the `Radians` variant is returned as-is
(`self`), the `Degrees` payload is scaled by `f64::to_radians`. -/
def Angle.to_radians : Angle → Angle
  | .degrees d => .radians (d * (Real.pi / 180))
  | .radians r => .radians r

/-- From `Angle::unwrap_degrees`: convert, then extract the payload. The
`none` branch models the `unreachable!` panic arm taken if the wrong
variant were observed after conversion. -/
def Angle.unwrap_degrees (a : Angle) : Option ℝ :=
  match a.to_degrees with
  | .degrees d => some d
  | .radians _ => none

/-- From `Angle::unwrap_radians`: convert, then extract the payload. The
`none` branch models the `unreachable!` panic arm taken if the wrong
variant were observed after conversion. -/
def Angle.unwrap_radians (a : Angle) : Option ℝ :=
  match a.to_radians with
  | .radians r => some r
  | .degrees _ => none

/-- The derived viewport geometry of `Camera` in `src/camera/mod.rs`. -/
structure Camera where
  origin : Vec3
  lower_left_corner : Vec3
  horizontal : Vec3
  vertical : Vec3
  u : Vec3
  v : Vec3
  w : Vec3
  lens_radius : ℝ

/-- From `Camera::get_ray` (`src/camera/mod.rs` lines 49-56). The call
to `Vec3::random_in_unit_disk()` is made explicit as the `disk_sample`
argument, so the definition covers every value of the random draw. -/
def Camera.get_ray (cam : Camera) (u v : ℝ) (disk_sample : Vec3) : Ray :=
  let fuzzed := cam.lens_radius * disk_sample
  let offset := cam.u * fuzzed.x + cam.v * fuzzed.y
  ⟨cam.origin + offset,
    cam.lower_left_corner + u * cam.horizontal + v * cam.vertical - cam.origin - offset⟩

/-- A Lambertian material, from `Lambertian { albedo }`. -/
structure Lambertian where
  albedo : Color

/-- From `impl Material for Lambertian`, `Lambertian::scatter`
(`src/material/mod.rs` lines 36-50). The call to
`Vec3::random_unit_vector()` is made explicit as the `unit_vec`
argument. The normal is flipped to oppose the incoming ray before being
added to the random unit vector; a near-zero sum falls back to the bare
stored normal. -/
def Lambertian.scatter (m : Lambertian) (unit_vec : Vec3) (ray : Ray) (hit_record : HitData) :
    Option ScatterRecord :=
  let facing :=
    if hit_record.normal.dot ray.direction < 0 then hit_record.normal else -hit_record.normal
  let scatter_direction0 := unit_vec + facing
  let scatter_direction :=
    if scatter_direction0.near_zero then hit_record.normal else scatter_direction0
  some ⟨m.albedo, ⟨hit_record.p, scatter_direction⟩⟩

/-- A Dielectric material, from `Dielectric { albedo, refractive_index }`. -/
structure Dielectric where
  albedo : Color
  refractive_index : ℝ

/-- From `Dielectric::reflectance` (`src/material/mod.rs` lines
126-130): Schlick's approximation, with `eta_quot` standing for the
source's refraction-ratio argument. -/
def Dielectric.reflectance (_m : Dielectric) (cos_theta eta_quot : ℝ) : ℝ :=
  let r0 := ((1 - eta_quot) / (1 + eta_quot)) ^ 2
  r0 + (1 - r0) * (1 - cos_theta) ^ 5

/-- The total-internal-reflection test computed by `Dielectric::scatter`
(`src/material/mod.rs` line 143): the refraction ratio times the sine of
the incidence angle exceeds one. -/
def Dielectric.cannot_refract (m : Dielectric) (ray : Ray) (hit_record : HitData) : Prop :=
  let unit_direction := ray.direction.normalized
  let cos_theta := unit_direction.dot hit_record.normal
  let etas := if cos_theta < 0 then ((1 : ℝ), m.refractive_index) else (m.refractive_index, (1 : ℝ))
  etas.1 / etas.2 * Real.sqrt (1 - cos_theta * cos_theta) > 1

/-- From `impl Material for Dielectric`, `Dielectric::scatter`
(`src/material/mod.rs` lines 134-162). The uniform draw `rand::random()`
is made explicit as the `rand_val` argument. -/
def Dielectric.scatter (m : Dielectric) (rand_val : ℝ) (ray : Ray) (hit_record : HitData) :
    Option ScatterRecord :=
  let unit_direction := ray.direction.normalized
  let cos_theta := unit_direction.dot hit_record.normal
  let etas := if cos_theta < 0 then ((1 : ℝ), m.refractive_index) else (m.refractive_index, (1 : ℝ))
  if m.cannot_refract ray hit_record ∨ m.reflectance cos_theta (etas.1 / etas.2) > rand_val then
    some ⟨m.albedo, ⟨hit_record.p, unit_direction.reflect_about hit_record.normal⟩⟩
  else
    some ⟨m.albedo, ⟨hit_record.p, ray.direction.refract hit_record.normal etas.1 etas.2⟩⟩

/-- From `ray_color` in `src/main.rs` (lines 25-48). The recursion-depth
argument is placed in recursion position; a zero budget yields black, a
miss yields the sky gradient, a hit defers to the material's scatter and
attenuates the recursive estimate, and an absorbed scatter yields the
default (black) color. -/
def ray_color (world : Hittable) : ℕ → Ray → Color
  | 0, _ => Color.new 0 0 0
  | Nat.succ depth, ray =>
    match world.hit_by ray ⟨((0.001 : ℝ) : EReal), ⊤⟩ with
    | none =>
      let unit_direction := ray.direction.normalized
      let t := 0.5 * (unit_direction.y + 1.0)
      (Color.new 1 1 1).interpolate (Color.new 0.5 0.7 1.0) t
    | some hit_record =>
      match hit_record.material.scatter ray hit_record.toHitData with
      | some sr => (ray_color world depth sr.direction).attenuate sr.attenuation
      | none => Color.defaultColor

/-! Componentwise unfolding lemmas for the vector operations. -/

@[simp]
lemma Vec3.add_def (v w : Vec3) : v + w = ⟨v.x + w.x, v.y + w.y, v.z + w.z⟩ :=
  rfl

@[simp]
lemma Vec3.sub_def (v w : Vec3) : v - w = ⟨v.x - w.x, v.y - w.y, v.z - w.z⟩ :=
  rfl

@[simp]
lemma Vec3.neg_def (v : Vec3) : -v = ⟨v.x * -1, v.y * -1, v.z * -1⟩ :=
  rfl

@[simp]
lemma Vec3.smul_def (k : ℝ) (v : Vec3) : k * v = ⟨v.x * k, v.y * k, v.z * k⟩ :=
  rfl

@[simp]
lemma Vec3.mulk_def (k : ℝ) (v : Vec3) : v * k = ⟨v.x * k, v.y * k, v.z * k⟩ :=
  rfl

@[simp]
lemma Vec3.divk_def (k : ℝ) (v : Vec3) :
    v / k = ⟨v.x * (1 / k), v.y * (1 / k), v.z * (1 / k)⟩ :=
  rfl

/-- Membership of a real value in the unit interval, the documented
channel range of `Color`. -/
def in_unit (v : ℝ) : Prop :=
  0 ≤ v ∧ v ≤ 1

lemma clamp01_nonneg (v : ℝ) : 0 ≤ clamp01 v :=
  le_min (le_max_right v 0) zero_le_one

lemma clamp01_le_one (v : ℝ) : clamp01 v ≤ 1 :=
  min_le_right _ _

lemma clamp01_in_unit (v : ℝ) : in_unit (clamp01 v) :=
  ⟨clamp01_nonneg v, clamp01_le_one v⟩

lemma clamp01_of_nonpos {v : ℝ} (h : v ≤ 0) : clamp01 v = 0 := by
  unfold clamp01
  rw [max_eq_right h, min_eq_left zero_le_one]

lemma clamp01_of_one_le {v : ℝ} (h : 1 ≤ v) : clamp01 v = 1 := by
  unfold clamp01
  rw [max_eq_left (zero_le_one.trans h), min_eq_right h]

/-- C9: for every camera and viewport coordinates `(u, v)`, the point the
ray returned by `Camera::get_ray` reaches at parameter `t = 1` equals
`lower_left_corner + u*horizontal + v*vertical`, independently of the
random lens-disk sample offsetting the ray's origin; equivalently,
`origin + direction` of the returned ray is that focal-plane target. -/
theorem camera_get_ray_focal_target (cam : Camera) (u v : ℝ) (disk_sample : Vec3) :
    (cam.get_ray u v disk_sample).at 1 =
      cam.lower_left_corner + u * cam.horizontal + v * cam.vertical ∧
    (cam.get_ray u v disk_sample).origin + (cam.get_ray u v disk_sample).direction =
      cam.lower_left_corner + u * cam.horizontal + v * cam.vertical := by
  constructor <;>
    · show Vec3.mk _ _ _ = Vec3.mk _ _ _
      simp only [Camera.get_ray, Ray.at, Vec3.add_def, Vec3.sub_def, Vec3.smul_def,
        Vec3.mulk_def, Vec3.mk.injEq]
      refine ⟨by ring, by ring, by ring⟩

/-- C8: `Angle::to_degrees` and `Angle::to_radians` are the identity on
the already-matching variant and idempotent on every angle, and the
convert-then-extract helpers `unwrap_degrees`/`unwrap_radians` never
reach their `unreachable!` arm (modelled as `none`): they always yield a
payload. -/
theorem angle_conversions_sound (a : Angle) (d r : ℝ) :
    Angle.to_degrees (.degrees d) = .degrees d ∧
    Angle.to_radians (.radians r) = .radians r ∧
    a.to_degrees.to_degrees = a.to_degrees ∧
    a.to_radians.to_radians = a.to_radians ∧
    (∃ dv, a.unwrap_degrees = some dv) ∧
    (∃ rv, a.unwrap_radians = some rv) := by
  refine ⟨rfl, rfl, ?_, ?_, ?_, ?_⟩ <;> cases a <;>
    simp [Angle.to_degrees, Angle.to_radians, Angle.unwrap_degrees, Angle.unwrap_radians]

/-- C4 (counterexample): the claim that no operation on `Color` can
produce a channel outside the unit interval fails at the concrete input
`merge_samples` of the empty sample sequence, whose unguarded `0./0.`
division fills every channel with NaN (modelled as `none`): the call
produces no channels lying in the unit interval. -/
theorem color_merge_samples_escapes_unit_range :
    ¬ ∃ col, Color.merge_samples [] = some col ∧
      in_unit col.r ∧ in_unit col.g ∧ in_unit col.b := by
  rintro ⟨col, hcol, -⟩
  simp [Color.merge_samples, Color.merge_fold] at hcol

/-- C4 (amended): `Color::new` and the three channel setters clamp every
channel into the unit interval, with inputs at most zero mapped to zero
and inputs at least one mapped to one, and each setter leaves the other
two channels untouched; `merge_samples` is the exception among `Color`
operations, producing unclamped (and on the empty sequence non-real)
channels. -/
theorem color_new_and_setters_clamp (r g b x : ℝ) (c : Color) :
    (in_unit (Color.new r g b).r ∧ in_unit (Color.new r g b).g ∧ in_unit (Color.new r g b).b) ∧
    (r ≤ 0 → (Color.new r g b).r = 0) ∧ (1 ≤ r → (Color.new r g b).r = 1) ∧
    (g ≤ 0 → (Color.new r g b).g = 0) ∧ (1 ≤ g → (Color.new r g b).g = 1) ∧
    (b ≤ 0 → (Color.new r g b).b = 0) ∧ (1 ≤ b → (Color.new r g b).b = 1) ∧
    (in_unit (c.set_red x).r ∧ (x ≤ 0 → (c.set_red x).r = 0) ∧
      (1 ≤ x → (c.set_red x).r = 1) ∧ (c.set_red x).g = c.g ∧ (c.set_red x).b = c.b) ∧
    (in_unit (c.set_green x).g ∧ (x ≤ 0 → (c.set_green x).g = 0) ∧
      (1 ≤ x → (c.set_green x).g = 1) ∧ (c.set_green x).r = c.r ∧ (c.set_green x).b = c.b) ∧
    (in_unit (c.set_blue x).b ∧ (x ≤ 0 → (c.set_blue x).b = 0) ∧
      (1 ≤ x → (c.set_blue x).b = 1) ∧ (c.set_blue x).r = c.r ∧ (c.set_blue x).g = c.g) := by
  refine ⟨⟨clamp01_in_unit r, clamp01_in_unit g, clamp01_in_unit b⟩,
    fun h => clamp01_of_nonpos h, fun h => clamp01_of_one_le h,
    fun h => clamp01_of_nonpos h, fun h => clamp01_of_one_le h,
    fun h => clamp01_of_nonpos h, fun h => clamp01_of_one_le h,
    ⟨clamp01_in_unit x, fun h => clamp01_of_nonpos h, fun h => clamp01_of_one_le h, rfl, rfl⟩,
    ⟨clamp01_in_unit x, fun h => clamp01_of_nonpos h, fun h => clamp01_of_one_le h, rfl, rfl⟩,
    ⟨clamp01_in_unit x, fun h => clamp01_of_nonpos h, fun h => clamp01_of_one_le h, rfl, rfl⟩⟩

/-- C4 (witness): the amended clamping statement evaluated at the
concrete inputs `-1`, `2` and `1/2`. -/
theorem color_new_and_setters_clamp_witness :
    (Color.new (-1) 2 (1/2)).r = 0 ∧ (Color.new (-1) 2 (1/2)).g = 1 ∧
    in_unit (Color.new (-1) 2 (1/2)).b := by
  obtain ⟨⟨-, -, hbu⟩, hr0, -, -, hg1, -⟩ :=
    color_new_and_setters_clamp (-1) 2 (1/2) 0 ⟨0, 0, 0⟩
  exact ⟨hr0 (by norm_num), hg1 (by norm_num), hbu⟩

lemma merge_fold_go (l : List Color) (n : ℝ) (v : Vec3) :
    l.foldl (fun acc s => (acc.1 + 1, acc.2 + Vec3.fromColor s)) (n, v) =
      (n + l.length,
        v + ⟨(l.map Color.r).sum, (l.map Color.g).sum, (l.map Color.b).sum⟩) := by
  induction l generalizing n v with
  | nil =>
    simp only [List.foldl_nil, List.map_nil, List.sum_nil, List.length_nil, Nat.cast_zero,
      add_zero, Vec3.add_def]
  | cons hd tl ih =>
    rw [List.foldl_cons, ih]
    simp only [List.map_cons, List.sum_cons, List.length_cons, Vec3.add_def, Vec3.fromColor,
      Prod.mk.injEq, Vec3.mk.injEq]
    push_cast
    and_intros <;> ring

lemma merge_fold_eq (l : List Color) :
    Color.merge_fold l =
      ((l.length : ℝ), ⟨(l.map Color.r).sum, (l.map Color.g).sum, (l.map Color.b).sum⟩) := by
  unfold Color.merge_fold
  rw [merge_fold_go]
  simp [Vec3.add_def]

/-- C10: `Color::merge_samples` divides the summed samples by the sample
count with no clamp and no guard on the division; on the empty sample
sequence the count and the sum both reduce to zero, so every channel is
the non-real `0./0.` (NaN, modelled as `none`) and escapes the unit
channel range, while on every non-empty sequence the result is exactly
the per-channel arithmetic mean of the samples. -/
theorem color_merge_samples_mean (samples : List Color) :
    ((Color.merge_fold ([] : List Color)).1 = 0 ∧
      (Color.merge_fold ([] : List Color)).2 = Vec3.mk 0 0 0 ∧
      Color.merge_samples ([] : List Color) = none) ∧
    (samples ≠ [] →
      Color.merge_samples samples =
        some ⟨(samples.map Color.r).sum / samples.length,
          (samples.map Color.g).sum / samples.length,
          (samples.map Color.b).sum / samples.length⟩) := by
  constructor
  · refine ⟨by simp [merge_fold_eq], by simp [merge_fold_eq], ?_⟩
    simp [Color.merge_samples, merge_fold_eq]
  · intro hne
    have hlen : (samples.length : ℝ) ≠ 0 := by
      simpa using List.length_pos.mpr hne |>.ne'
    simp [Color.merge_samples, merge_fold_eq, hlen]

/-- C10 (witness): merging the two concrete samples black and white
yields the mid-gray mean in every channel. -/
theorem color_merge_samples_mean_witness :
    Color.merge_samples [Color.mk 0 0 0, Color.mk 1 1 1] =
      some ⟨1/2, 1/2, 1/2⟩ := by
  have h := (color_merge_samples_mean [Color.mk 0 0 0, Color.mk 1 1 1]).2 (by simp)
  rw [h]
  norm_num

lemma f64_as_u32_in_byte_range {x : ℝ} (h0 : 0 ≤ x) (h1 : x ≤ 1) :
    ((f64_as_u32 (x * 255.999)) : ℤ) = ⌊x * 255.999⌋ ∧ f64_as_u32 (x * 255.999) ≤ 255 := by
  have hy0 : (0 : ℝ) ≤ x * 255.999 := by nlinarith
  have hylt : x * 255.999 < 256 := by nlinarith
  have hf0 : (0 : ℤ) ≤ ⌊x * 255.999⌋ := Int.floor_nonneg.mpr hy0
  have hf255 : ⌊x * 255.999⌋ ≤ 255 := by
    have : ⌊x * 255.999⌋ < 256 := Int.floor_lt.mpr (by exact_mod_cast hylt)
    omega
  have hval : f64_as_u32 (x * 255.999) = ⌊x * 255.999⌋.toNat := by
    unfold f64_as_u32
    rw [max_eq_left hf0, min_eq_left (by omega)]
  constructor
  · rw [hval, Int.toNat_of_nonneg hf0]
  · rw [hval]
    omega

/-- C6: the text serialization of `Color` maps each channel in the unit
interval to the integer `floor(channel * 255.999)`, every emitted
channel is at most `255`, and a channel of exactly `1.0` is emitted as
`255`, never `256`. -/
theorem color_display_floor_bytes (c : Color) (hr : in_unit c.r) (hg : in_unit c.g)
    (hb : in_unit c.b) :
    ((c.displayTriple.1 : ℤ) = ⌊c.r * 255.999⌋ ∧ c.displayTriple.1 ≤ 255) ∧
    ((c.displayTriple.2.1 : ℤ) = ⌊c.g * 255.999⌋ ∧ c.displayTriple.2.1 ≤ 255) ∧
    ((c.displayTriple.2.2 : ℤ) = ⌊c.b * 255.999⌋ ∧ c.displayTriple.2.2 ≤ 255) ∧
    (c.r = 1 → c.displayTriple.1 = 255) := by
  refine ⟨f64_as_u32_in_byte_range hr.1 hr.2, f64_as_u32_in_byte_range hg.1 hg.2,
    f64_as_u32_in_byte_range hb.1 hb.2, fun h1 => ?_⟩
  have hfloor : ⌊(1 : ℝ) * 255.999⌋ = 255 := by
    rw [one_mul, Int.floor_eq_iff]
    norm_num
  have := (f64_as_u32_in_byte_range hr.1 hr.2).1
  show f64_as_u32 (c.r * 255.999) = 255
  rw [h1] at this ⊢
  rw [hfloor] at this
  exact_mod_cast this

/-- C6 (witness): the serialization bound evaluated at the concrete
color with channels `1`, `0` and `1/2`: the full channel is emitted as
`255` and the empty channel stays within the byte range. -/
theorem color_display_floor_bytes_witness :
    (Color.mk 1 0 (1/2)).displayTriple.1 = 255 ∧
    (Color.mk 1 0 (1/2)).displayTriple.2.1 ≤ 255 := by
  have h := color_display_floor_bytes ⟨1, 0, 1/2⟩ (by constructor <;> norm_num)
    (by constructor <;> norm_num) (by constructor <;> norm_num)
  exact ⟨h.2.2.2 rfl, h.2.1.2⟩

/-- The normal flipped to oppose the incoming ray, as computed inline by
`Lambertian::scatter`: the stored normal itself when the ray arrives
against it, its negation otherwise. -/
def facing_normal (ray : Ray) (hit_record : HitData) : Vec3 :=
  if hit_record.normal.dot ray.direction < 0 then hit_record.normal else -hit_record.normal

/-- C7: `Lambertian::scatter` always returns a record (never absorbs),
its attenuation is exactly the material's albedo, the scattered ray
originates exactly at the hit point, and its direction is the normal
facing the incoming ray plus the random unit vector, falling back to
the bare stored normal when that sum is numerically near zero. -/
theorem lambertian_scatter_correct (m : Lambertian) (unit_vec : Vec3) (ray : Ray)
    (hit_record : HitData) :
    ∃ sr, m.scatter unit_vec ray hit_record = some sr ∧
      sr.attenuation = m.albedo ∧
      sr.direction.origin = hit_record.p ∧
      (¬ (unit_vec + facing_normal ray hit_record).near_zero →
        sr.direction.direction = unit_vec + facing_normal ray hit_record) ∧
      ((unit_vec + facing_normal ray hit_record).near_zero →
        sr.direction.direction = hit_record.normal) := by
  unfold Lambertian.scatter facing_normal
  by_cases h : (unit_vec +
      if hit_record.normal.dot ray.direction < 0 then hit_record.normal
      else -hit_record.normal).near_zero
  · exact ⟨_, rfl, rfl, rfl, fun hn => absurd h hn, fun _ => if_pos h⟩
  · exact ⟨_, rfl, rfl, rfl, fun _ => if_neg h, fun hn => absurd hn h⟩

/-- C7 (witness): the Lambertian scatter statement evaluated at a
concrete material, unit vector, ray and hit record: the ray arrives
against the normal, the sum is far from zero, and the returned record
carries the albedo, the hit point and the normal-plus-unit-vector
direction. -/
theorem lambertian_scatter_correct_witness :
    Lambertian.scatter ⟨Color.mk (1/2) (1/2) (1/2)⟩ (Vec3.mk 0 0 1)
        ⟨Vec3.mk 0 0 0, Vec3.mk 0 0 (-1)⟩ ⟨Vec3.mk 1 2 3, Vec3.mk 0 0 1, 1⟩ =
      some ⟨Color.mk (1/2) (1/2) (1/2), Vec3.mk 1 2 3, Vec3.mk 0 0 2⟩ := by
  obtain ⟨sr, hsr, ha, ho, hfar, -⟩ :=
    lambertian_scatter_correct ⟨Color.mk (1/2) (1/2) (1/2)⟩ (Vec3.mk 0 0 1)
      ⟨Vec3.mk 0 0 0, Vec3.mk 0 0 (-1)⟩ ⟨Vec3.mk 1 2 3, Vec3.mk 0 0 1, 1⟩
  have hface : facing_normal ⟨Vec3.mk 0 0 0, Vec3.mk 0 0 (-1)⟩ ⟨Vec3.mk 1 2 3, Vec3.mk 0 0 1, 1⟩ =
      Vec3.mk 0 0 1 := by
    unfold facing_normal
    rw [if_pos]
    show (0 : ℝ) * 0 + 0 * 0 + 1 * -1 < 0
    norm_num
  rw [hface] at hfar
  have hdir := hfar (by
    simp only [Vec3.add_def, Vec3.near_zero]
    norm_num)
  obtain ⟨att, dir⟩ := sr
  obtain ⟨dorigin, ddirection⟩ := dir
  simp only at ha ho hdir
  rw [hsr, ha, ho, hdir]
  norm_num

/-- C5 (counterexample): with refractive index `1` the Schlick `r0` term
vanishes, but the computed reflectance is not independent of the
incidence angle: at `cos θ = 0` it is `1` while at `cos θ = 1` it is
`0`. -/
theorem dielectric_reflectance_depends_on_angle :
    (Dielectric.mk (Color.mk 1 1 1) 1).reflectance 0 1 = 1 ∧
    (Dielectric.mk (Color.mk 1 1 1) 1).reflectance 1 1 = 0 ∧
    (Dielectric.mk (Color.mk 1 1 1) 1).reflectance 0 1 ≠
      (Dielectric.mk (Color.mk 1 1 1) 1).reflectance 1 1 := by
  unfold Dielectric.reflectance
  norm_num

/-- C5 (amended): a Dielectric with refractive index `1.0` never takes
the total-internal-reflection branch for any incoming ray and hit
record, and its Schlick reflectance has `r0 = 0`, reducing to
`(1 - cos θ)^5` — which still varies with the incidence angle. -/
theorem dielectric_matched_index_no_tir (m : Dielectric) (hm : m.refractive_index = 1)
    (ray : Ray) (hit_record : HitData) :
    ¬ m.cannot_refract ray hit_record ∧
    (∀ cos_theta : ℝ, m.reflectance cos_theta 1 = (1 - cos_theta) ^ 5) := by
  constructor
  · unfold Dielectric.cannot_refract
    rw [hm]
    dsimp only
    rw [ite_self, not_lt]
    have h1 : 1 - ray.direction.normalized.dot hit_record.normal *
        ray.direction.normalized.dot hit_record.normal ≤ 1 := by
      nlinarith [sq_nonneg (ray.direction.normalized.dot hit_record.normal)]
    have hsq := Real.sqrt_le_sqrt h1
    rw [Real.sqrt_one] at hsq
    simpa using hsq
  · intro cos_theta
    unfold Dielectric.reflectance
    norm_num

/-- C5 (witness): the amended statement evaluated at a concrete matched
dielectric, ray and hit record, and at the concrete angle with cosine
`1/2`. -/
theorem dielectric_matched_index_no_tir_witness :
    ¬ (Dielectric.mk (Color.mk 1 1 1) 1).cannot_refract ⟨Vec3.mk 0 0 0, Vec3.mk 0 0 1⟩
        ⟨Vec3.mk 0 0 0, Vec3.mk 0 0 1, 1⟩ ∧
    (Dielectric.mk (Color.mk 1 1 1) 1).reflectance (1/2) 1 = (1 - 1/2) ^ 5 :=
  ⟨(dielectric_matched_index_no_tir (Dielectric.mk (Color.mk 1 1 1) 1) rfl
      ⟨Vec3.mk 0 0 0, Vec3.mk 0 0 1⟩ ⟨Vec3.mk 0 0 0, Vec3.mk 0 0 1, 1⟩).1,
    (dielectric_matched_index_no_tir (Dielectric.mk (Color.mk 1 1 1) 1) rfl
      ⟨Vec3.mk 0 0 0, Vec3.mk 0 0 1⟩ ⟨Vec3.mk 0 0 0, Vec3.mk 0 0 1, 1⟩).2 (1/2)⟩

lemma defaultColor_eq_new : Color.defaultColor = Color.new 0 0 0 := by
  unfold Color.defaultColor Color.new clamp01
  norm_num

/-- C2: the recursive color estimator returns black when the depth
budget is exhausted; otherwise it intersects the ray against the world
over the inclusive range `[0.001, +∞]`, and on a hit whose material
scatter yields a record it returns the recursive estimate on the
outgoing ray with one less unit of depth, attenuated channelwise by the
record's attenuation, while a hit whose scatter yields nothing returns
black. -/
theorem ray_color_recursion_correct (world : Hittable) (ray : Ray) (depth : ℕ) :
    ray_color world 0 ray = Color.new 0 0 0 ∧
    (∀ h, world.hit_by ray ⟨((0.001 : ℝ) : EReal), ⊤⟩ = some h →
      (∀ sr, h.material.scatter ray h.toHitData = some sr →
        ray_color world (depth + 1) ray =
          (ray_color world depth sr.direction).attenuate sr.attenuation) ∧
      (h.material.scatter ray h.toHitData = none →
        ray_color world (depth + 1) ray = Color.new 0 0 0)) := by
  refine ⟨rfl, fun h hhit => ⟨fun sr hsr => ?_, fun hnone => ?_⟩⟩
  · rw [ray_color, hhit]
    dsimp only
    rw [hsr]
  · rw [ray_color, hhit]
    dsimp only
    rw [hnone]
    exact defaultColor_eq_new

/-- A trait-object material that absorbs every ray, used to evaluate the
estimator's recursion contract on a concrete world. -/
def absorbMaterial : Material :=
  ⟨fun _ _ => none⟩

/-- A fixed intersection record carrying the absorbing material. -/
def constHit : RayHit :=
  ⟨⟨⟨0, 0, 0⟩, ⟨0, 0, 1⟩, 1⟩, absorbMaterial⟩

/-- A trait-object world whose intersection test always reports
`constHit`. -/
def constWorld : Hittable :=
  ⟨fun _ _ => some constHit⟩

/-- C2 (witness): on a concrete world that always reports a hit with an
absorbing material, one unit of depth budget yields black. -/
theorem ray_color_recursion_correct_witness :
    ray_color constWorld 1 ⟨Vec3.mk 0 0 0, Vec3.mk 0 0 1⟩ = Color.new 0 0 0 := by
  have h := (ray_color_recursion_correct constWorld ⟨Vec3.mk 0 0 0, Vec3.mk 0 0 1⟩ 0).2
    constHit rfl
  exact h.2 rfl

/-! Quadratic analysis of `Sphere::hit_by`. The named quantities below
are the let-bound intermediates of the source, packaged as definitions
so that theorems can speak about them. -/

/-- The `half_b` intermediate of `Sphere::hit_by`. -/
def sphere_half_b (s : Sphere) (ray : Ray) : ℝ :=
  (ray.origin - s.center).dot ray.direction

/-- The `c` intermediate of `Sphere::hit_by`. -/
def sphere_c (s : Sphere) (ray : Ray) : ℝ :=
  (ray.origin - s.center).length_squared - s.radius ^ 2

/-- The `quarter_discriminant` intermediate of `Sphere::hit_by`. -/
def quarter_disc (s : Sphere) (ray : Ray) : ℝ :=
  sphere_half_b s ray * sphere_half_b s ray - ray.direction.length_squared * sphere_c s ray

/-- The smaller root `t0` computed by `Sphere::hit_by`. -/
def sphere_t0 (s : Sphere) (ray : Ray) : ℝ :=
  (-sphere_half_b s ray - Real.sqrt (quarter_disc s ray)) / ray.direction.length_squared

/-- The larger root: the source computes it as
`t0 + 2 * half_sdiscriminant / a`, which equals this closed form
whenever `a ≠ 0` (`sphere_t1_eq`). -/
def sphere_t1 (s : Sphere) (ray : Ray) : ℝ :=
  (-sphere_half_b s ray + Real.sqrt (quarter_disc s ray)) / ray.direction.length_squared

lemma Vec3.length_squared_nonneg (v : Vec3) : 0 ≤ v.length_squared := by
  unfold Vec3.length_squared
  have := mul_self_nonneg v.x
  have := mul_self_nonneg v.y
  have := mul_self_nonneg v.z
  linarith

lemma Vec3.length_squared_pos {v : Vec3} (hv : v ≠ ⟨0, 0, 0⟩) : 0 < v.length_squared := by
  rcases (Vec3.length_squared_nonneg v).lt_or_eq with h | h
  · exact h
  · exfalso
    unfold Vec3.length_squared at h
    have hx : v.x = 0 := mul_self_eq_zero.mp
      (le_antisymm (by nlinarith [mul_self_nonneg v.y, mul_self_nonneg v.z])
        (mul_self_nonneg v.x))
    have hy : v.y = 0 := mul_self_eq_zero.mp
      (le_antisymm (by nlinarith [mul_self_nonneg v.x, mul_self_nonneg v.z])
        (mul_self_nonneg v.y))
    have hz : v.z = 0 := mul_self_eq_zero.mp
      (le_antisymm (by nlinarith [mul_self_nonneg v.x, mul_self_nonneg v.y])
        (mul_self_nonneg v.z))
    exact hv (Vec3.ext hx hy hz)

/-- Being on the sphere at parameter `t` is exactly being a root of the
quadratic whose coefficients `Sphere::hit_by` assembles. -/
lemma on_sphere_iff_quadratic (s : Sphere) (ray : Ray) (t : ℝ) :
    on_sphere s ray t ↔
      ray.direction.length_squared * t ^ 2 + 2 * sphere_half_b s ray * t + sphere_c s ray = 0 := by
  have key : (ray.at t - s.center).length_squared - s.radius ^ 2 =
      ray.direction.length_squared * t ^ 2 + 2 * sphere_half_b s ray * t + sphere_c s ray := by
    simp only [Ray.at, Vec3.add_def, Vec3.sub_def, Vec3.smul_def, Vec3.length_squared, Vec3.dot,
      sphere_half_b, sphere_c]
    ring
  unfold on_sphere
  constructor <;> intro h <;> linarith [key]

/-- Completing the square: the quadratic residual at `t` is tied to the
quarter-discriminant. -/
lemma sphere_square_identity (s : Sphere) (ray : Ray) (t : ℝ) :
    (ray.direction.length_squared * t + sphere_half_b s ray) ^ 2 - quarter_disc s ray =
      ray.direction.length_squared *
        (ray.direction.length_squared * t ^ 2 + 2 * sphere_half_b s ray * t + sphere_c s ray) := by
  unfold quarter_disc
  ring

/-- An intersection parameter exists only when the quarter-discriminant
is nonnegative. -/
lemma on_sphere_quarter_disc_nonneg {s : Sphere} {ray : Ray} {t : ℝ}
    (h : on_sphere s ray t) : 0 ≤ quarter_disc s ray := by
  have hq := (on_sphere_iff_quadratic s ray t).mp h
  have hid := sphere_square_identity s ray t
  rw [hq, mul_zero] at hid
  nlinarith [sq_nonneg (ray.direction.length_squared * t + sphere_half_b s ray)]

lemma quadratic_root_of_sq {a hb c r : ℝ} (ha : a ≠ 0)
    (h : (a * r + hb) ^ 2 = hb * hb - a * c) :
    a * r ^ 2 + 2 * hb * r + c = 0 := by
  have key : a * (a * r ^ 2 + 2 * hb * r + c) = (a * r + hb) ^ 2 - (hb * hb - a * c) := by
    ring
  have h0 : a * (a * r ^ 2 + 2 * hb * r + c) = 0 := by rw [key, h, sub_self]
  exact (mul_eq_zero.mp h0).resolve_left ha

lemma a_mul_t0_add (s : Sphere) (ray : Ray) (ha : ray.direction.length_squared ≠ 0) :
    ray.direction.length_squared * sphere_t0 s ray + sphere_half_b s ray =
      -Real.sqrt (quarter_disc s ray) := by
  unfold sphere_t0
  field_simp
  ring

lemma a_mul_t1_add (s : Sphere) (ray : Ray) (ha : ray.direction.length_squared ≠ 0) :
    ray.direction.length_squared * sphere_t1 s ray + sphere_half_b s ray =
      Real.sqrt (quarter_disc s ray) := by
  unfold sphere_t1
  field_simp

lemma on_sphere_t0 (s : Sphere) (ray : Ray) (ha : ray.direction.length_squared ≠ 0)
    (hqd : 0 ≤ quarter_disc s ray) : on_sphere s ray (sphere_t0 s ray) := by
  rw [on_sphere_iff_quadratic]
  refine quadratic_root_of_sq ha ?_
  rw [a_mul_t0_add s ray ha, neg_sq, Real.sq_sqrt hqd]
  unfold quarter_disc
  ring

lemma on_sphere_t1 (s : Sphere) (ray : Ray) (ha : ray.direction.length_squared ≠ 0)
    (hqd : 0 ≤ quarter_disc s ray) : on_sphere s ray (sphere_t1 s ray) := by
  rw [on_sphere_iff_quadratic]
  refine quadratic_root_of_sq ha ?_
  rw [a_mul_t1_add s ray ha, Real.sq_sqrt hqd]
  unfold quarter_disc
  ring

/-- Every intersection parameter is one of the two computed roots. -/
lemma on_sphere_eq_t0_or_t1 {s : Sphere} {ray : Ray}
    (ha : ray.direction.length_squared ≠ 0) {t : ℝ} (h : on_sphere s ray t) :
    t = sphere_t0 s ray ∨ t = sphere_t1 s ray := by
  have hq := (on_sphere_iff_quadratic s ray t).mp h
  have hqd := on_sphere_quarter_disc_nonneg h
  have hid := sphere_square_identity s ray t
  rw [hq, mul_zero] at hid
  have hsq : (ray.direction.length_squared * t + sphere_half_b s ray) ^ 2 =
      Real.sqrt (quarter_disc s ray) ^ 2 := by
    rw [Real.sq_sqrt hqd]
    linarith
  have hfac : (ray.direction.length_squared * t + sphere_half_b s ray -
        Real.sqrt (quarter_disc s ray)) *
      (ray.direction.length_squared * t + sphere_half_b s ray +
        Real.sqrt (quarter_disc s ray)) = 0 := by
    nlinarith [hsq]
  rcases mul_eq_zero.mp hfac with hcase | hcase
  · right
    unfold sphere_t1
    rw [eq_div_iff ha]
    linarith
  · left
    unfold sphere_t0
    rw [eq_div_iff ha]
    linarith

lemma sphere_t0_le_t1 (s : Sphere) (ray : Ray) (ha : 0 < ray.direction.length_squared) :
    sphere_t0 s ray ≤ sphere_t1 s ray := by
  unfold sphere_t0 sphere_t1
  have h := Real.sqrt_nonneg (quarter_disc s ray)
  exact (div_le_div_iff_of_pos_right ha).mpr (by linarith)

/-- The larger root in the exact form the source computes it:
`t0 + 2 * half_sdiscriminant / a`. -/
def sphere_t1code (s : Sphere) (ray : Ray) : ℝ :=
  sphere_t0 s ray + 2 * Real.sqrt (quarter_disc s ray) / ray.direction.length_squared

lemma sphere_t1code_eq (s : Sphere) (ray : Ray) (ha : ray.direction.length_squared ≠ 0) :
    sphere_t1code s ray = sphere_t1 s ray := by
  unfold sphere_t1code sphere_t0 sphere_t1
  field_simp
  ring

/-- Unfolding of `Sphere::hit_by` in terms of the named intermediates. -/
lemma Sphere.hit_by_eq (s : Sphere) (ray : Ray) (valid_t : TRange) :
    s.hit_by ray valid_t =
      if quarter_disc s ray < 0 then none
      else if valid_t.mem (sphere_t0 s ray) then
        some ⟨⟨ray.at (sphere_t0 s ray), s.normal (ray.at (sphere_t0 s ray)), sphere_t0 s ray⟩,
          s.material⟩
      else if valid_t.mem (sphere_t1code s ray) then
        some ⟨⟨ray.at (sphere_t1code s ray), s.normal (ray.at (sphere_t1code s ray)),
          sphere_t1code s ray⟩, s.material⟩
      else none :=
  rfl

/-- C1: for every sphere, ray with nonzero direction, and inclusive
parameter range, `Sphere::hit_by` returns `none` when the
quarter-discriminant `half_b^2 - a*c` is negative; otherwise the two
computed values are genuine intersection parameters `t0 ≤ t1`, they are
the only intersection parameters, and the result is the hit at `t0` if
`t0` lies in the range (inclusive), else the hit at `t1` if `t1` lies in
the range, else `none`. -/
theorem sphere_hit_by_correct (s : Sphere) (ray : Ray) (valid_t : TRange)
    (hd : ray.direction ≠ ⟨0, 0, 0⟩) :
    (quarter_disc s ray < 0 → s.hit_by ray valid_t = none) ∧
    (0 ≤ quarter_disc s ray →
      sphere_t0 s ray ≤ sphere_t1 s ray ∧
      on_sphere s ray (sphere_t0 s ray) ∧
      on_sphere s ray (sphere_t1 s ray) ∧
      (∀ t, on_sphere s ray t → t = sphere_t0 s ray ∨ t = sphere_t1 s ray) ∧
      (valid_t.mem (sphere_t0 s ray) →
        s.hit_by ray valid_t =
          some ⟨⟨ray.at (sphere_t0 s ray), s.normal (ray.at (sphere_t0 s ray)),
            sphere_t0 s ray⟩, s.material⟩) ∧
      (¬ valid_t.mem (sphere_t0 s ray) → valid_t.mem (sphere_t1 s ray) →
        s.hit_by ray valid_t =
          some ⟨⟨ray.at (sphere_t1 s ray), s.normal (ray.at (sphere_t1 s ray)),
            sphere_t1 s ray⟩, s.material⟩) ∧
      (¬ valid_t.mem (sphere_t0 s ray) → ¬ valid_t.mem (sphere_t1 s ray) →
        s.hit_by ray valid_t = none)) := by
  have hapos : 0 < ray.direction.length_squared := Vec3.length_squared_pos hd
  have ha : ray.direction.length_squared ≠ 0 := hapos.ne'
  have hT1 := sphere_t1code_eq s ray ha
  constructor
  · intro hneg
    rw [Sphere.hit_by_eq, if_pos hneg]
  · intro hqd
    refine ⟨sphere_t0_le_t1 s ray hapos, on_sphere_t0 s ray ha hqd, on_sphere_t1 s ray ha hqd,
      fun t ht => on_sphere_eq_t0_or_t1 ha ht, ?_, ?_, ?_⟩
    · intro hmem
      rw [Sphere.hit_by_eq, if_neg (not_lt.mpr hqd), if_pos hmem]
    · intro hmem0 hmem1
      rw [Sphere.hit_by_eq, if_neg (not_lt.mpr hqd), if_neg hmem0, hT1, if_pos hmem1]
    · intro hmem0 hmem1
      rw [Sphere.hit_by_eq, if_neg (not_lt.mpr hqd), if_neg hmem0, hT1, if_neg hmem1]

/-- C1 (witness): the unit sphere at the origin, hit by a ray fired from
distance `3` straight at the center over the range `[0, +∞]`, intersects
at `t = 3 - 1` (distance minus radius), at the point `(1, 0, 0)` with
outward normal `(1, 0, 0)`. -/
theorem sphere_hit_by_correct_witness :
    Sphere.hit_by ⟨⟨0, 0, 0⟩, 1, absorbMaterial⟩ ⟨⟨3, 0, 0⟩, ⟨-1, 0, 0⟩⟩
        ⟨((0 : ℝ) : EReal), ⊤⟩ =
      some ⟨⟨⟨1, 0, 0⟩, ⟨1, 0, 0⟩, 3 - 1⟩, absorbMaterial⟩ := by
  have hd : (Ray.mk ⟨3, 0, 0⟩ ⟨-1, 0, 0⟩).direction ≠ (⟨0, 0, 0⟩ : Vec3) := by
    intro hcon
    have hx := congrArg Vec3.x hcon
    norm_num at hx
  have hqdv : quarter_disc ⟨⟨0, 0, 0⟩, 1, absorbMaterial⟩ ⟨⟨3, 0, 0⟩, ⟨-1, 0, 0⟩⟩ = 1 := by
    unfold quarter_disc sphere_half_b sphere_c
    simp only [Vec3.dot, Vec3.length_squared, Vec3.sub_def]
    norm_num
  have ht0 : sphere_t0 ⟨⟨0, 0, 0⟩, 1, absorbMaterial⟩ ⟨⟨3, 0, 0⟩, ⟨-1, 0, 0⟩⟩ = 2 := by
    unfold sphere_t0
    rw [hqdv]
    unfold sphere_half_b
    simp only [Vec3.dot, Vec3.length_squared, Vec3.sub_def, Real.sqrt_one]
    norm_num
  have H := (sphere_hit_by_correct ⟨⟨0, 0, 0⟩, 1, absorbMaterial⟩ ⟨⟨3, 0, 0⟩, ⟨-1, 0, 0⟩⟩
    ⟨((0 : ℝ) : EReal), ⊤⟩ hd).2 (by rw [hqdv]; norm_num)
  obtain ⟨-, -, -, -, hbr, -, -⟩ := H
  have hmem : TRange.mem ⟨((0 : ℝ) : EReal), ⊤⟩
      (sphere_t0 ⟨⟨0, 0, 0⟩, 1, absorbMaterial⟩ ⟨⟨3, 0, 0⟩, ⟨-1, 0, 0⟩⟩) := by
    rw [ht0]
    refine ⟨?_, le_top⟩
    show ((0 : ℝ) : EReal) ≤ ((2 : ℝ) : EReal)
    exact_mod_cast (by norm_num : (0 : ℝ) ≤ 2)
  have hres := hbr hmem
  rw [ht0] at hres
  rw [hres]
  simp only [Ray.at, Sphere.normal, Vec3.add_def, Vec3.smul_def, Vec3.divk_def, Vec3.sub_def,
    Option.some.injEq, RayHit.mk.injEq, HitData.mk.injEq, Vec3.mk.injEq]
  norm_num

/-! Analysis of `List::hit_by`. A member object is specified through a
predicate `p` describing the parameters at which the given ray truly
intersects it; a well-behaved member returns the nearest in-range
intersection, or `none` exactly when it has no in-range intersection.
`Sphere::hit_by` satisfies both (proved below). -/

/-- A member object returns, on every queried range, a hit at a true
intersection parameter lying in the range and no later than every other
in-range intersection parameter. -/
def hits_min_in_range (o : Hittable) (ray : Ray) (p : ℝ → Prop) : Prop :=
  ∀ J h, o.hit_by ray J = some h → p h.t ∧ J.mem h.t ∧ ∀ t, p t → J.mem t → h.t ≤ t

/-- A member object misses only when it has no intersection parameter in
the queried range. -/
def none_means_no_hit (o : Hittable) (ray : Ray) (p : ℝ → Prop) : Prop :=
  ∀ J, o.hit_by ray J = none → ∀ t, p t → ¬ J.mem t

lemma TRange.mem_of_narrow {I : TRange} {cut t : ℝ} (hc : I.mem cut)
    (h : TRange.mem ⟨I.lo, (cut : EReal)⟩ t) : I.mem t ∧ t ≤ cut := by
  obtain ⟨h1, h2⟩ := h
  have h2c : (t : EReal) ≤ (cut : EReal) := h2
  have h2r : t ≤ cut := by exact_mod_cast h2c
  exact ⟨⟨h1, le_trans h2c hc.2⟩, h2r⟩

lemma TRange.narrow_of_mem {I : TRange} {cut t : ℝ} (hm : I.mem t) (hle : t ≤ cut) :
    TRange.mem ⟨I.lo, (cut : EReal)⟩ t := by
  refine ⟨hm.1, ?_⟩
  show (t : EReal) ≤ (cut : EReal)
  exact_mod_cast hle

lemma TRange.lt_of_not_narrow {I : TRange} {cut t : ℝ} (hm : I.mem t)
    (h : ¬ TRange.mem ⟨I.lo, (cut : EReal)⟩ t) : cut < t := by
  by_contra hc
  push_neg at hc
  exact h (TRange.narrow_of_mem hm hc)

/-- Induction workhorse for `List::hit_by`: the fold of the source,
started from an arbitrary accumulator whose hit (if any) lies in the
range, produces a hit that lies in the range, is a true intersection of
some member (or the accumulator), and is no later than the accumulator
and than every in-range intersection of every member; it produces `none`
only from an empty accumulator with every member missing on the full
range. -/
lemma list_fold_hit_aux (ray : Ray) (I : TRange) :
    ∀ (objs : List Hittable) (ps : List (ℝ → Prop)) (acc : Option RayHit),
      objs.length = ps.length →
      (∀ op ∈ List.zip objs ps,
        hits_min_in_range op.1 ray op.2 ∧ none_means_no_hit op.1 ray op.2) →
      (∀ a, acc = some a → I.mem a.t) →
      (∀ h,
        List.foldl
          (fun acc object =>
            match acc with
            | none => object.hit_by ray I
            | some a =>
              match object.hit_by ray ⟨I.lo, (a.t : EReal)⟩ with
              | some b => some b
              | none => some a)
          acc objs = some h →
        I.mem h.t ∧ (acc = some h ∨ ∃ op ∈ List.zip objs ps, op.2 h.t) ∧
        (∀ a, acc = some a → h.t ≤ a.t) ∧
        (∀ op ∈ List.zip objs ps, ∀ t, op.2 t → I.mem t → h.t ≤ t)) ∧
      (List.foldl
          (fun acc object =>
            match acc with
            | none => object.hit_by ray I
            | some a =>
              match object.hit_by ray ⟨I.lo, (a.t : EReal)⟩ with
              | some b => some b
              | none => some a)
          acc objs = none →
        acc = none ∧ ∀ op ∈ List.zip objs ps, op.1.hit_by ray I = none) := by
  intro objs
  induction objs with
  | nil =>
    intro ps acc hlen hspec haccmem
    constructor
    · intro h hfold
      simp only [List.foldl_nil] at hfold
      refine ⟨haccmem h hfold, Or.inl hfold, ?_, ?_⟩
      · intro a ha
        rw [ha] at hfold
        injection hfold with h1
        rw [h1]
      · intro op hop
        simp only [List.zip_nil_left] at hop
        cases hop
    · intro hfold
      simp only [List.foldl_nil] at hfold
      refine ⟨hfold, ?_⟩
      intro op hop
      simp only [List.zip_nil_left] at hop
      cases hop
  | cons o objs2 ih =>
    intro ps acc hlen hspec haccmem
    cases ps with
    | nil => simp at hlen
    | cons q ps2 =>
      have hlen2 : objs2.length = ps2.length := by simpa using hlen
      have hhead := hspec (o, q) (by simp [List.zip_cons_cons])
      have hspec2 : ∀ op ∈ List.zip objs2 ps2,
          hits_min_in_range op.1 ray op.2 ∧ none_means_no_hit op.1 ray op.2 := by
        intro op hop
        exact hspec op (by simp only [List.zip_cons_cons, List.mem_cons]; exact Or.inr hop)
      simp only [List.foldl_cons]
      cases hacc : acc with
      | none =>
        cases hhit : o.hit_by ray I with
        | some b =>
          obtain ⟨hqb, hmemb, hminb⟩ := hhead.1 I b hhit
          obtain ⟨IH1, IH2⟩ := ih ps2 (some b) hlen2 hspec2
            (fun a ha => by cases ha; exact hmemb)
          simp only [hhit]
          constructor
          · intro h hfold
            obtain ⟨ih_mem, ih_origin, ih_acc, ih_min⟩ := IH1 h hfold
            refine ⟨ih_mem, ?_, ?_, ?_⟩
            · right
              rcases ih_origin with heq | ⟨op, hop, hp⟩
              · injection heq with h1
                exact ⟨(o, q), by simp [List.zip_cons_cons], by rw [← h1]; exact hqb⟩
              · exact ⟨op, by simp only [List.zip_cons_cons, List.mem_cons]; exact Or.inr hop, hp⟩
            · intro a ha
              cases ha
            · intro op hop t hpt hmt
              rcases (by simpa only [List.zip_cons_cons, List.mem_cons] using hop :
                  op = (o, q) ∨ op ∈ List.zip objs2 ps2) with rfl | hop2
              · exact le_trans (ih_acc b rfl) (hminb t hpt hmt)
              · exact ih_min op hop2 t hpt hmt
          · intro hfold
            obtain ⟨habs, -⟩ := IH2 hfold
            cases habs
        | none =>
          have hnone := hhead.2 I hhit
          obtain ⟨IH1, IH2⟩ := ih ps2 none hlen2 hspec2 (fun a ha => by cases ha)
          simp only [hhit]
          constructor
          · intro h hfold
            obtain ⟨ih_mem, ih_origin, -, ih_min⟩ := IH1 h hfold
            refine ⟨ih_mem, ?_, ?_, ?_⟩
            · right
              rcases ih_origin with heq | ⟨op, hop, hp⟩
              · cases heq
              · exact ⟨op, by simp only [List.zip_cons_cons, List.mem_cons]; exact Or.inr hop, hp⟩
            · intro a ha
              cases ha
            · intro op hop t hpt hmt
              rcases (by simpa only [List.zip_cons_cons, List.mem_cons] using hop :
                  op = (o, q) ∨ op ∈ List.zip objs2 ps2) with rfl | hop2
              · exact absurd hmt (hnone t hpt)
              · exact ih_min op hop2 t hpt hmt
          · intro hfold
            obtain ⟨-, htail⟩ := IH2 hfold
            refine ⟨trivial, ?_⟩
            intro op hop
            rcases (by simpa only [List.zip_cons_cons, List.mem_cons] using hop :
                op = (o, q) ∨ op ∈ List.zip objs2 ps2) with rfl | hop2
            · exact hhit
            · exact htail op hop2
      | some a =>
        have hamem : I.mem a.t := haccmem a hacc
        cases hhit : o.hit_by ray ⟨I.lo, (a.t : EReal)⟩ with
        | some b =>
          obtain ⟨hqb, hmemb, hminb⟩ := hhead.1 _ b hhit
          obtain ⟨hbI, hba⟩ := TRange.mem_of_narrow hamem hmemb
          obtain ⟨IH1, IH2⟩ := ih ps2 (some b) hlen2 hspec2
            (fun a2 ha2 => by cases ha2; exact hbI)
          simp only [hhit]
          constructor
          · intro h hfold
            obtain ⟨ih_mem, ih_origin, ih_acc, ih_min⟩ := IH1 h hfold
            have hhb : h.t ≤ b.t := ih_acc b rfl
            refine ⟨ih_mem, ?_, ?_, ?_⟩
            · right
              rcases ih_origin with heq | ⟨op, hop, hp⟩
              · injection heq with h1
                exact ⟨(o, q), by simp [List.zip_cons_cons], by rw [← h1]; exact hqb⟩
              · exact ⟨op, by simp only [List.zip_cons_cons, List.mem_cons]; exact Or.inr hop, hp⟩
            · intro a2 ha2
              injection ha2 with h1
              rw [← h1]
              exact le_trans hhb hba
            · intro op hop t hpt hmt
              rcases (by simpa only [List.zip_cons_cons, List.mem_cons] using hop :
                  op = (o, q) ∨ op ∈ List.zip objs2 ps2) with rfl | hop2
              · by_cases hta : t ≤ a.t
                · exact le_trans hhb (hminb t hpt (TRange.narrow_of_mem hmt hta))
                · push_neg at hta
                  exact le_trans (le_trans hhb hba) hta.le
              · exact ih_min op hop2 t hpt hmt
          · intro hfold
            obtain ⟨habs, -⟩ := IH2 hfold
            cases habs
        | none =>
          have hnone := hhead.2 _ hhit
          obtain ⟨IH1, IH2⟩ := ih ps2 (some a) hlen2 hspec2
            (fun a2 ha2 => by cases ha2; exact hamem)
          simp only [hhit]
          constructor
          · intro h hfold
            obtain ⟨ih_mem, ih_origin, ih_acc, ih_min⟩ := IH1 h hfold
            have hha : h.t ≤ a.t := ih_acc a rfl
            refine ⟨ih_mem, ?_, ?_, ?_⟩
            · rcases ih_origin with heq | ⟨op, hop, hp⟩
              · left
                exact heq
              · right
                exact ⟨op, by simp only [List.zip_cons_cons, List.mem_cons]; exact Or.inr hop, hp⟩
            · intro a2 ha2
              injection ha2 with h1
              rw [← h1]
              exact hha
            · intro op hop t hpt hmt
              rcases (by simpa only [List.zip_cons_cons, List.mem_cons] using hop :
                  op = (o, q) ∨ op ∈ List.zip objs2 ps2) with rfl | hop2
              · have hlt := TRange.lt_of_not_narrow hmt (hnone t hpt)
                exact le_trans hha hlt.le
              · exact ih_min op hop2 t hpt hmt
          · intro hfold
            obtain ⟨habs, -⟩ := IH2 hfold
            cases habs

/-- A sphere with a nonzero-direction ray is a well-behaved member: any
returned hit is at a true in-range intersection parameter no later than
every other in-range intersection parameter. -/
lemma sphere_hits_min_in_range (s : Sphere) (ray : Ray) (hd : ray.direction ≠ ⟨0, 0, 0⟩) :
    hits_min_in_range s.toHittable ray (on_sphere s ray) := by
  intro J h hhit
  have ha : ray.direction.length_squared ≠ 0 := (Vec3.length_squared_pos hd).ne'
  have hhit2 : s.hit_by ray J = some h := hhit
  rw [Sphere.hit_by_eq] at hhit2
  by_cases hneg : quarter_disc s ray < 0
  · rw [if_pos hneg] at hhit2
    cases hhit2
  · rw [if_neg hneg] at hhit2
    push_neg at hneg
    rw [sphere_t1code_eq s ray ha] at hhit2
    by_cases hm0 : J.mem (sphere_t0 s ray)
    · rw [if_pos hm0] at hhit2
      cases hhit2
      refine ⟨on_sphere_t0 s ray ha hneg, hm0, ?_⟩
      intro t ht hmt
      rcases on_sphere_eq_t0_or_t1 ha ht with rfl | rfl
      · exact le_refl _
      · exact sphere_t0_le_t1 s ray (Vec3.length_squared_pos hd)
    · rw [if_neg hm0] at hhit2
      by_cases hm1 : J.mem (sphere_t1 s ray)
      · rw [if_pos hm1] at hhit2
        cases hhit2
        refine ⟨on_sphere_t1 s ray ha hneg, hm1, ?_⟩
        intro t ht hmt
        rcases on_sphere_eq_t0_or_t1 ha ht with rfl | rfl
        · exact absurd hmt hm0
        · exact le_refl _
      · rw [if_neg hm1] at hhit2
        cases hhit2

/-- A sphere with a nonzero-direction ray misses only when it has no
in-range intersection parameter. -/
lemma sphere_none_means_no_hit (s : Sphere) (ray : Ray) (hd : ray.direction ≠ ⟨0, 0, 0⟩) :
    none_means_no_hit s.toHittable ray (on_sphere s ray) := by
  intro J hnone t ht hmt
  have ha : ray.direction.length_squared ≠ 0 := (Vec3.length_squared_pos hd).ne'
  have hnone2 : s.hit_by ray J = none := hnone
  rw [Sphere.hit_by_eq] at hnone2
  by_cases hneg : quarter_disc s ray < 0
  · exact absurd (on_sphere_quarter_disc_nonneg ht) (not_le.mpr hneg)
  · rw [if_neg hneg, sphere_t1code_eq s ray ha] at hnone2
    by_cases hm0 : J.mem (sphere_t0 s ray)
    · rw [if_pos hm0] at hnone2
      cases hnone2
    · rw [if_neg hm0] at hnone2
      by_cases hm1 : J.mem (sphere_t1 s ray)
      · rw [if_pos hm1] at hnone2
        cases hnone2
      · rcases on_sphere_eq_t0_or_t1 ha ht with rfl | rfl
        · exact hm0 hmt
        · exact hm1 hmt

/-- C3: for every ray and inclusive range, over members that each return
their nearest in-range intersection (as `Sphere::hit_by` does),
`List::hit_by` returns `none` on the empty list; a returned hit lies in
the range, is a true intersection of some member, and is no later than
every in-range intersection of every member (never a farther
intersection when a nearer one exists); and a `none` result means no
member has any in-range intersection. -/
theorem list_hit_by_nearest (objs : List Hittable) (ps : List (ℝ → Prop)) (ray : Ray)
    (I : TRange) (hlen : objs.length = ps.length)
    (hspec : ∀ op ∈ List.zip objs ps,
      hits_min_in_range op.1 ray op.2 ∧ none_means_no_hit op.1 ray op.2) :
    (objs = [] → listHitBy objs ray I = none) ∧
    (∀ h, listHitBy objs ray I = some h →
      I.mem h.t ∧ (∃ op ∈ List.zip objs ps, op.2 h.t) ∧
      ∀ op ∈ List.zip objs ps, ∀ t, op.2 t → I.mem t → h.t ≤ t) ∧
    (listHitBy objs ray I = none →
      ∀ op ∈ List.zip objs ps, ∀ t, op.2 t → ¬ I.mem t) := by
  obtain ⟨A1, A2⟩ := list_fold_hit_aux ray I objs ps none hlen hspec (fun a ha => by cases ha)
  refine ⟨?_, ?_, ?_⟩
  · rintro rfl
    rfl
  · intro h hres
    obtain ⟨hm, horigin, -, hmin⟩ := A1 h hres
    rcases horigin with heq | hex
    · cases heq
    · exact ⟨hm, hex, hmin⟩
  · intro hres op hop t hpt
    obtain ⟨-, hall⟩ := A2 hres
    exact (hspec op hop).2 I (hall op hop) t hpt

/-- First witness sphere: center on the z-axis at distance 5, radius 1
(intersections of the axis ray at 4 and 6). -/
def sphereA : Sphere :=
  ⟨⟨0, 0, 5⟩, 1, absorbMaterial⟩

/-- Second witness sphere: center on the z-axis at distance 7, radius 2,
overlapping the first (intersections of the axis ray at 5 and 9). -/
def sphereB : Sphere :=
  ⟨⟨0, 0, 7⟩, 2, absorbMaterial⟩

/-- The axis ray used by the list witness. -/
def zRay : Ray :=
  ⟨⟨0, 0, 0⟩, ⟨0, 0, 1⟩⟩

/-- The inclusive range from zero to positive infinity. -/
def fullRange : TRange :=
  ⟨((0 : ℝ) : EReal), ⊤⟩

lemma zRay_dir_ne : zRay.direction ≠ ⟨0, 0, 0⟩ := by
  intro hcon
  have hz := congrArg Vec3.z hcon
  norm_num [zRay] at hz

lemma fullRange_mem {t : ℝ} (h : 0 ≤ t) : fullRange.mem t := by
  refine ⟨?_, le_top⟩
  show ((0 : ℝ) : EReal) ≤ (t : EReal)
  exact_mod_cast h

lemma sphereA_qd : quarter_disc sphereA zRay = 1 := by
  unfold quarter_disc sphere_half_b sphere_c sphereA zRay
  norm_num [Vec3.dot, Vec3.length_squared, Vec3.sub_def]

lemma sphereB_qd : quarter_disc sphereB zRay = 4 := by
  unfold quarter_disc sphere_half_b sphere_c sphereB zRay
  norm_num [Vec3.dot, Vec3.length_squared, Vec3.sub_def]

lemma sphereA_t0_eq : sphere_t0 sphereA zRay = 4 := by
  unfold sphere_t0
  rw [sphereA_qd, Real.sqrt_one]
  unfold sphere_half_b sphereA zRay
  norm_num [Vec3.dot, Vec3.length_squared, Vec3.sub_def]

lemma sphereA_t1_eq : sphere_t1 sphereA zRay = 6 := by
  unfold sphere_t1
  rw [sphereA_qd, Real.sqrt_one]
  unfold sphere_half_b sphereA zRay
  norm_num [Vec3.dot, Vec3.length_squared, Vec3.sub_def]

lemma sqrt_four : Real.sqrt 4 = 2 := by
  rw [show (4 : ℝ) = 2 ^ 2 by norm_num, Real.sqrt_sq (by norm_num : (0 : ℝ) ≤ 2)]

lemma sphereB_t0_eq : sphere_t0 sphereB zRay = 5 := by
  unfold sphere_t0
  rw [sphereB_qd, sqrt_four]
  unfold sphere_half_b sphereB zRay
  norm_num [Vec3.dot, Vec3.length_squared, Vec3.sub_def]

lemma sphereB_t1_eq : sphere_t1 sphereB zRay = 9 := by
  unfold sphere_t1
  rw [sphereB_qd, sqrt_four]
  unfold sphere_half_b sphereB zRay
  norm_num [Vec3.dot, Vec3.length_squared, Vec3.sub_def]

lemma sphereA_on4 : on_sphere sphereA zRay 4 := by
  unfold on_sphere sphereA zRay Ray.at
  norm_num [Vec3.length_squared, Vec3.sub_def, Vec3.add_def, Vec3.smul_def]

/-- C3 (witness): on the two overlapping concrete spheres, with the axis
ray over `[0, +∞]`, `List::hit_by` returns the nearer intersection
`t = 4` (from the first sphere), not any of the farther ones. -/
theorem list_hit_by_nearest_witness :
    ∃ h, listHitBy [sphereA.toHittable, sphereB.toHittable] zRay fullRange = some h ∧
      h.t = 4 := by
  have haA : zRay.direction.length_squared ≠ 0 := (Vec3.length_squared_pos zRay_dir_ne).ne'
  have hspec : ∀ op ∈ List.zip [sphereA.toHittable, sphereB.toHittable]
      [on_sphere sphereA zRay, on_sphere sphereB zRay],
      hits_min_in_range op.1 zRay op.2 ∧ none_means_no_hit op.1 zRay op.2 := by
    intro op hop
    simp only [List.zip_cons_cons, List.zip_nil_right, List.mem_cons,
      List.not_mem_nil, or_false] at hop
    rcases hop with rfl | rfl
    · exact ⟨sphere_hits_min_in_range sphereA zRay zRay_dir_ne,
        sphere_none_means_no_hit sphereA zRay zRay_dir_ne⟩
    · exact ⟨sphere_hits_min_in_range sphereB zRay zRay_dir_ne,
        sphere_none_means_no_hit sphereB zRay zRay_dir_ne⟩
  have H := list_hit_by_nearest [sphereA.toHittable, sphereB.toHittable]
    [on_sphere sphereA zRay, on_sphere sphereB zRay] zRay fullRange rfl hspec
  have hm4 : fullRange.mem 4 := fullRange_mem (by norm_num)
  have hmemA : (sphereA.toHittable, on_sphere sphereA zRay) ∈
      List.zip [sphereA.toHittable, sphereB.toHittable]
        [on_sphere sphereA zRay, on_sphere sphereB zRay] := by
    simp [List.zip_cons_cons]
  cases hres : listHitBy [sphereA.toHittable, sphereB.toHittable] zRay fullRange with
  | none =>
    exact absurd hm4 (H.2.2 hres (sphereA.toHittable, on_sphere sphereA zRay) hmemA 4 sphereA_on4)
  | some h =>
    refine ⟨h, rfl, ?_⟩
    obtain ⟨-, hex, hmin⟩ := H.2.1 h hres
    have hle4 : h.t ≤ 4 := hmin (sphereA.toHittable, on_sphere sphereA zRay) hmemA 4
      sphereA_on4 hm4
    obtain ⟨op, hop, hp⟩ := hex
    simp only [List.zip_cons_cons, List.zip_nil_right, List.mem_cons,
      List.not_mem_nil, or_false] at hop
    rcases hop with rfl | rfl
    · rcases on_sphere_eq_t0_or_t1 haA hp with he | he
      · rw [he, sphereA_t0_eq]
      · rw [he, sphereA_t1_eq] at hle4
        norm_num at hle4
    · rcases on_sphere_eq_t0_or_t1 haA hp with he | he
      · rw [he, sphereB_t0_eq] at hle4
        norm_num at hle4
      · rw [he, sphereB_t1_eq] at hle4
        norm_num at hle4

end

end RT
